import Mathlib

/-!
Shallow embedding of `src/main.rs` (interactive directory browser):
tree model (`FileNode`, `load_children`, `lazy_load_to_depth`), the
column-packing layout (`layout_nodes`), the navigation key handlers of
`main`, and the git-status merge (`update_tree_status`).

Conventions of the embedding:
* `u16` quantities (`Rect` fields, weights) are modelled on `Nat`; no input
  considered here approaches `2^16`, and no claim concerns wrap-around.
* Filesystem paths (`PathBuf`) are modelled as lists of components
  (`List String`); `Path::strip_prefix` becomes a component-prefix test and
  the status map is keyed by component lists.
* Fallible filesystem calls are modelled by an explicit `Fs` record whose
  operations return `Option` / `Except Unit`; `?`-propagation becomes the
  `Except` monad, and `entries.flatten()` of `read_dir` results becomes
  skipping of `.error` elements.
* The `f32` computation `((base as f32) * scale).max(1.0).floor()` with
  `scale = height / total` is modelled by the exact rational value
  `max 1 (base * height / total)` (`Nat` floor division); the claims and
  counterexamples below only involve values on which the two agree.
-/

namespace Castle

/-- `ratatui::layout::Rect` with `u16` fields, modelled on `Nat`. -/
structure RectN where
  x : Nat
  y : Nat
  width : Nat
  height : Nat
deriving DecidableEq

/-- The colors the program actually assigns to nodes (`ratatui` `Color`). -/
inductive ColorT where
  | white
  | green
  | yellow
  | red
deriving DecidableEq

/-- The `git2::Status` flag set, restricted to the six flags the code reads. -/
structure GitStatus where
  indexNew : Bool
  wtNew : Bool
  indexModified : Bool
  wtModified : Bool
  indexDeleted : Bool
  wtDeleted : Bool
deriving DecidableEq

/-- `struct FileNode` from the source: name, path, is_dir, rect, color,
children, loaded. -/
inductive FileNode : Type where
  | mk (name : String) (path : List String) (isDir : Bool) (rect : RectN)
       (color : ColorT) (children : List FileNode) (loaded : Bool) : FileNode

def FileNode.name : FileNode → String
  | .mk v _ _ _ _ _ _ => v

def FileNode.path : FileNode → List String
  | .mk _ v _ _ _ _ _ => v

def FileNode.isDir : FileNode → Bool
  | .mk _ _ v _ _ _ _ => v

def FileNode.rect : FileNode → RectN
  | .mk _ _ _ v _ _ _ => v

def FileNode.color : FileNode → ColorT
  | .mk _ _ _ _ v _ _ => v

def FileNode.children : FileNode → List FileNode
  | .mk _ _ _ _ _ v _ => v

def FileNode.loaded : FileNode → Bool
  | .mk _ _ _ _ _ _ v => v

/-- Replace the children list, keeping every other field. -/
def FileNode.setChildren : FileNode → List FileNode → FileNode
  | .mk nm p d r c _ l, cs => .mk nm p d r c cs l

/-- Replace child `i` (in-place mutation `node.children[i] = c` of the source;
out-of-range `i` leaves the list unchanged, and is never used that way). -/
def FileNode.setChild (n : FileNode) (i : Nat) (c : FileNode) : FileNode :=
  n.setChildren (n.children.set i c)

/-- `file_name()` of a component path: its last component. -/
def lastComponent (p : List String) : String :=
  p.getLastD ""

/-- `FileNode::new`: zero rect, white color, no children,
`loaded = !is_dir` ("files are always loaded"). -/
def FileNode.new (name : String) (path : List String) (isDir : Bool) : FileNode :=
  .mk name path isDir ⟨0, 0, 0, 0⟩ .white [] (!isDir)

/-- Model of the filesystem the program reads.
`readDir p = none` models `fs::read_dir` returning `Err`; a `some` result
lists the iterator's items, each either a path (`Ok` entry) or a per-entry
iterator error (skipped by `entries.flatten()` in the source).
`metadata p = .error ()` models `fs::metadata` failing for `p`; otherwise it
yields `is_dir`. -/
structure Fs where
  readDir : List String → Option (List (Except Unit (List String)))
  metadata : List String → Except Unit Bool

/-- The entry loop of `load_children`: `entries.flatten()` skips `Err`
items; for each `Ok` entry, `fs::metadata(&child_path)?` propagates a
failure out of the whole loop; otherwise a fresh `FileNode` is pushed. -/
def readEntries (fs : Fs) : List (Except Unit (List String)) → Except Unit (List FileNode)
  | [] => .ok []
  | .error _ :: rest => readEntries fs rest
  | .ok p :: rest => do
      let isDir ← fs.metadata p
      let cs ← readEntries fs rest
      return FileNode.new (lastComponent p) p isDir :: cs

/-- `load_children` from the source, verbatim: early `Ok` when the node is
not a directory or already `loaded`; if `read_dir` fails the (empty) local
vector is still assigned; a `metadata` failure aborts with `Err`, leaving
the node untouched. Note the source never sets `loaded = true`. -/
def loadChildren (fs : Fs) (n : FileNode) : Except Unit FileNode :=
  if !n.isDir || n.loaded then .ok n
  else
    match fs.readDir n.path with
    | none => .ok (n.setChildren [])
    | some entries =>
      match readEntries fs entries with
      | .error e => .error e
      | .ok cs => .ok (n.setChildren cs)

/-- `lazy_load_to_depth`: stop at depth 0; on a directory, run
`load_children` discarding its error (`_ = load_children(node)` — on `Err`
the node keeps its previous children), then recurse into every child with
`depth - 1`. -/
def lazyLoadToDepth (fs : Fs) : Nat → FileNode → FileNode
  | 0, n => n
  | d + 1, n =>
    if n.isDir then
      let m := match loadChildren fs n with
        | .ok m => m
        | .error _ => n
      m.setChildren (m.children.map (fun c => lazyLoadToDepth fs d c))
    else n

/-! ## Layout (`layout_nodes`, source lines 113-206)

The claims below concern a single invocation of `layout_nodes`: the column
partition and the per-column rectangle assignment of the given node list.
The recursion into a directory child's own children (guarded by
`depth < 2`) applies the very same computation to `inner_rect` of the
child's rectangle and is not needed by any claim, so the embedding exposes
the one-level computation `layoutRects`. -/

/-- Base weight of a node in `layout_nodes`:
`max(3, 1 + node.children.len())` for a directory, `1` for a file. -/
def nodeWeight (n : FileNode) : Nat :=
  if n.isDir then max 3 (1 + n.children.length) else 1

/-- The column-building loop of `layout_nodes`: `cur` is `current_col`
(kept in order), `sum` is `current_sum`; a new column is started when
`!current_col.is_empty() && current_sum + base > area.height`. -/
def buildColsAux {α : Type} (wt : α → Nat) (hgt : Nat) :
    List α → List α → Nat → List (List α)
  | [], cur, _ => if cur.isEmpty then [] else [cur]
  | n :: ns, cur, sum =>
    if cur.isEmpty = false ∧ hgt < sum + wt n then
      cur :: buildColsAux wt hgt ns [n] (wt n)
    else
      buildColsAux wt hgt ns (cur ++ [n]) (sum + wt n)

/-- The greedy column partition of `layout_nodes` (initial empty
`current_col`, zero `current_sum`). -/
def buildColumns {α : Type} (wt : α → Nat) (hgt : Nat) (ns : List α) : List (List α) :=
  buildColsAux wt hgt ns [] 0

/-- Modelled from the spec (§4.2 step 2), for comparison with
`buildColumns`: the members a column takes after its first one — the
longest further prefix that keeps the accumulated weight within `hgt` —
together with the leftover suffix. -/
def takeCol {α : Type} (wt : α → Nat) (hgt : Nat) : Nat → List α → List α × List α
  | _, [] => ([], [])
  | sum, n :: ns =>
    if hgt < sum + wt n then ([], n :: ns)
    else
      let p := takeCol wt hgt (sum + wt n) ns
      (n :: p.1, p.2)

theorem takeCol_snd_length {α : Type} (wt : α → Nat) (hgt : Nat) :
    ∀ (sum : Nat) (ns : List α), ((takeCol wt hgt sum ns).2).length ≤ ns.length := by
  intro sum ns
  induction ns generalizing sum with
  | nil => simp [takeCol]
  | cons n ns ih =>
    simp only [takeCol]
    split
    · simp
    · exact le_trans (ih _) (Nat.le_succ _)

/-- Modelled from the spec (§4.2 step 2): "scan children in order,
accumulate weight per column; start a new column before adding a child if
doing so would exceed the area's height, except a column must hold at
least one child regardless of its weight" — each column is a child
followed by the longest further prefix that still fits. -/
def greedyColumnsSpec {α : Type} (wt : α → Nat) (hgt : Nat) : List α → List (List α)
  | [] => []
  | n :: ns =>
    (n :: (takeCol wt hgt (wt n) ns).1) :: greedyColumnsSpec wt hgt (takeCol wt hgt (wt n) ns).2
termination_by ns => ns.length
decreasing_by
  simp only [List.length_cons]
  exact Nat.lt_succ_of_le (takeCol_snd_length wt hgt (wt n) ns)

/-- The `total <= area.height` branch of `layout_nodes`: each member's
height is its base weight plus `extra` rows; rectangles are emitted top to
bottom, `y` advancing by each height. -/
def underRects (x w extra : Nat) : Nat → List FileNode → List RectN
  | _, [] => []
  | y, n :: ns =>
    ⟨x, y, w, nodeWeight n + extra⟩ ::
      underRects x w extra (y + (nodeWeight n + extra)) ns

/-- The clip of the over-filled branch: `if y + height > area.y +
area.height`, replace the height by `(area.y + area.height) - y`
(`saturating_sub`). -/
def clipH (yTop hgt y ph : Nat) : Nat :=
  if yTop + hgt < y + ph then (yTop + hgt) - y else ph

/-- The `total > area.height` branch of `layout_nodes`: pre-clip height
`max 1 (base * hgt / total)` (the `f32` expression
`((base as f32) * scale).max(1.0).floor()` in exact arithmetic), then
clipped whenever `y + height` would pass `area.y + area.height`. -/
def overRects (x w yTop hgt total : Nat) : Nat → List FileNode → List RectN
  | _, [] => []
  | y, n :: ns =>
    ⟨x, y, w, clipH yTop hgt y (max 1 (nodeWeight n * hgt / total))⟩ ::
      overRects x w yTop hgt total
        (y + clipH yTop hgt y (max 1 (nodeWeight n * hgt / total))) ns

/-- Rectangle assignment for one column of `layout_nodes`: `total` is the
column's summed base weight; the under-filled branch distributes
`(hgt - total) / member_count` extra rows (`0` for an empty column, as in
the source's guard), the over-filled branch scales and clips. -/
def colRects (yTop hgt x w : Nat) (col : List FileNode) : List RectN :=
  let total := (col.map nodeWeight).sum
  if total ≤ hgt then
    underRects x w (if col.length = 0 then 0 else (hgt - total) / col.length) yTop col
  else
    overRects x w yTop hgt total yTop col

/-- One invocation of `layout_nodes` on `nodes` and `area`: empty list is a
no-op; otherwise build columns, give each `area.width / num_cols` width,
and lay column `ci` out at `x = area.x + ci * col_width`. The result lists
the rectangle assigned to each node, column by column (columns partition
the node list in order, so rectangles correspond to nodes in order). -/
def layoutRects (area : RectN) (nodes : List FileNode) : List RectN :=
  if nodes.isEmpty then []
  else
    let cols := buildColumns nodeWeight area.height nodes
    let colW := area.width / cols.length
    (cols.enum.map
      (fun p => colRects area.y area.height (area.x + p.1 * colW) colW p.2)).flatten

/-! ## Navigation (`get_current_node`, `get_current_node_mut`, and the key
handlers in `main`, source lines 285-301 and 450-504) -/

/-- `get_current_node`: descend through the index list; an index that is
not a valid child index at its level is skipped and the descent continues
from the node reached so far. -/
def getCurrentNode : FileNode → List Nat → FileNode
  | n, [] => n
  | n, i :: rest =>
    if h : i < n.children.length then getCurrentNode (n.children.get ⟨i, h⟩) rest
    else getCurrentNode n rest

/-- `get_current_node_mut`'s descent: `cur = &mut cur.children[i]` indexes
without a bounds check, so an out-of-range index is a panic — modelled as
`none`. Also serves as the positional accessor for frame properties. -/
def nodeAt? : FileNode → List Nat → Option FileNode
  | n, [] => some n
  | n, i :: rest =>
    match n.children.get? i with
    | some c => nodeAt? c rest
    | none => none

/-- Writing back through `get_current_node_mut`'s `&mut`: replace the node
reached by `path` (failing, like the descent, on an out-of-range index). -/
def setAt : FileNode → List Nat → FileNode → Option FileNode
  | _, [], m => some m
  | n, i :: rest, m =>
    match n.children.get? i with
    | some c => (setAt c rest m).map (fun c2 => n.setChild i c2)
    | none => none

/-- The mutable navigation state of `main`: the tree, `path_stack` and
`selection_stack`, each stack in `Vec` order (index 0 = bottom,
`last` = top). -/
structure NavState where
  tree : FileNode
  pathStack : List Nat
  selStack : List Nat

/-- `KeyCode::Up`: decrement the top of `selection_stack` when positive. -/
def stepUp (st : NavState) : NavState :=
  match st.selStack.getLast? with
  | none => st
  | some sel =>
    if 0 < sel then ⟨st.tree, st.pathStack, st.selStack.dropLast ++ [sel - 1]⟩
    else st

/-- `KeyCode::Down`: increment the top of `selection_stack` when below
`children.len().saturating_sub(1)` of the currently viewed node. -/
def stepDown (st : NavState) : NavState :=
  match st.selStack.getLast? with
  | none => st
  | some sel =>
    if sel < (getCurrentNode st.tree st.pathStack).children.length - 1 then
      ⟨st.tree, st.pathStack, st.selStack.dropLast ++ [sel + 1]⟩
    else st

/-- `KeyCode::Right`: resolve the viewed node mutably (panic — `none` — on
a bad path); if it has children, read the highlighted index (panics if the
selection stack is empty or the index is out of range, both `none`),
preload the highlighted child to depth 3 when it is an unloaded directory,
then push the index onto `path_stack` and `0` onto `selection_stack`.
When the viewed node has no children nothing happens. -/
def stepRight (fs : Fs) (st : NavState) : Option NavState :=
  match nodeAt? st.tree st.pathStack with
  | none => none
  | some cur =>
    if cur.children.isEmpty then some st
    else
      match st.selStack.getLast? with
      | none => none
      | some sel =>
        match cur.children.get? sel with
        | none => none
        | some child =>
          let tree2 :=
            if child.isDir = true ∧ child.loaded = false then
              (setAt st.tree st.pathStack
                (cur.setChild sel (lazyLoadToDepth fs 3 child))).getD st.tree
            else st.tree
          some ⟨tree2, st.pathStack ++ [sel], st.selStack ++ [0]⟩

/-- `KeyCode::Left`: pop both stacks unless `path_stack` is empty. -/
def stepLeft (st : NavState) : NavState :=
  if st.pathStack.isEmpty then st
  else ⟨st.tree, st.pathStack.dropLast, st.selStack.dropLast⟩

/-- The four directional inputs of the event loop. -/
inductive NavInput where
  | up
  | down
  | into
  | out

/-- One navigation transition of the event loop; `none` models a panic
(only possible for `into`, via unchecked indexing). -/
def stepNav (fs : Fs) : NavInput → NavState → Option NavState
  | .up, st => some (stepUp st)
  | .down, st => some (stepDown st)
  | .into, st => stepRight fs st
  | .out, st => some (stepLeft st)

/-- The stack-length invariant of `main`:
`selection_stack.len() == path_stack.len() + 1`. -/
def navInv (st : NavState) : Prop :=
  st.selStack.length = st.pathStack.length + 1

/-! ## Status merge (`update_tree_status`, `color_for_git_status`,
source lines 303-335) -/

/-- `color_for_git_status`: Added (green) over Modified (yellow) over
Deleted (red) over the default white. -/
def colorForGitStatus : Option GitStatus → ColorT
  | some s =>
    if s.indexNew || s.wtNew then .green
    else if s.indexModified || s.wtModified then .yellow
    else if s.indexDeleted || s.wtDeleted then .red
    else .white
  | none => .white

/-- The per-node color update of `update_tree_status`: when the
repository has a workdir (`wd`) and the node's path strips that prefix,
look the workdir-relative remainder up in the status map and recolor on a
hit; otherwise keep the current color. -/
def mergeColor (wd : Option (List String)) (m : List (List String × GitStatus))
    (path : List String) (color : ColorT) : ColorT :=
  match wd with
  | some w =>
    if w.isPrefixOf path then
      match m.lookup (path.drop w.length) with
      | some st => colorForGitStatus (some st)
      | none => color
    else color
  | none => color

/-- `update_tree_status`: apply the color update at the node and recurse
into all children.  `wd` is `repo.workdir()`, `m` the delivered map keyed
by workdir-relative component paths. -/
def updateTreeStatus (wd : Option (List String))
    (m : List (List String × GitStatus)) : FileNode → FileNode
  | .mk nm path isDir rect color children loaded =>
    .mk nm path isDir rect (mergeColor wd m path color)
      (children.attach.map (fun c => updateTreeStatus wd m c.1)) loaded
decreasing_by
  have h := List.sizeOf_lt_of_mem c.2
  simp [FileNode.mk.sizeOf_spec]
  omega

/-- Whether `update_tree_status` finds a status entry for path `p`: the
workdir exists, is a component prefix of `p`, and the workdir-relative
remainder is a key of the map. -/
def statusHit (wd : Option (List String)) (m : List (List String × GitStatus))
    (p : List String) : Bool :=
  match wd with
  | some w => w.isPrefixOf p && (m.lookup (p.drop w.length)).isSome
  | none => false

/-! ## Concrete sample data used by witnesses and counterexamples -/

/-- A filesystem on which every operation fails. -/
def trivialFs : Fs :=
  ⟨fun _ => none, fun _ => .error ()⟩

/-- A sample file node. -/
def fileA : FileNode := FileNode.new "a" ["a"] false

/-- A sample directory with two materialized children (base weight 3). -/
def dirB : FileNode :=
  .mk "sub" ["sub"] true ⟨0, 0, 0, 0⟩ .white
    [FileNode.new "c" ["sub", "c"] false, FileNode.new "d" ["sub", "d"] false] false

/-- A sample root directory holding one file child. -/
def rootA : FileNode :=
  .mk "r" ["r"] true ⟨0, 0, 0, 0⟩ .white [FileNode.new "a" ["r", "a"] false] true

/-! ## Layout lemmas -/

theorem takeCol_append {α : Type} (wt : α → Nat) (hgt : Nat) :
    ∀ (sum : Nat) (ns : List α),
      (takeCol wt hgt sum ns).1 ++ (takeCol wt hgt sum ns).2 = ns := by
  intro sum ns
  induction ns generalizing sum with
  | nil => simp [takeCol]
  | cons n ns ih =>
    simp only [takeCol]
    split
    · simp
    · simpa using ih (sum + wt n)

theorem buildColsAux_eq_spec {α : Type} (wt : α → Nat) (hgt : Nat) :
    ∀ (ns cur : List α) (sum : Nat), cur ≠ [] →
      buildColsAux wt hgt ns cur sum =
        (cur ++ (takeCol wt hgt sum ns).1) ::
          greedyColumnsSpec wt hgt (takeCol wt hgt sum ns).2 := by
  intro ns
  induction ns with
  | nil =>
    intro cur sum hcur
    simp [buildColsAux, takeCol, greedyColumnsSpec, List.isEmpty_iff, hcur]
  | cons n ns ih =>
    intro cur sum hcur
    simp only [buildColsAux, takeCol]
    rcases Nat.lt_or_ge hgt (sum + wt n) with hlt | hge
    · rw [if_pos ⟨by simpa [List.isEmpty_iff] using hcur, hlt⟩, if_pos hlt]
      rw [ih [n] (wt n) (by simp)]
      rw [greedyColumnsSpec]
      simp
    · rw [if_neg (by rintro ⟨-, h⟩; omega), if_neg (by omega)]
      rw [ih (cur ++ [n]) (sum + wt n) (by simp)]
      simp

theorem buildColumns_eq_spec {α : Type} (wt : α → Nat) (hgt : Nat) (ns : List α) :
    buildColumns wt hgt ns = greedyColumnsSpec wt hgt ns := by
  cases ns with
  | nil => simp [buildColumns, buildColsAux, greedyColumnsSpec]
  | cons n ns =>
    show buildColsAux wt hgt (n :: ns) [] 0 = _
    simp only [buildColsAux]
    rw [if_neg (by rintro ⟨h, -⟩; simp at h)]
    simp only [List.nil_append]
    rw [buildColsAux_eq_spec wt hgt ns [n] (0 + wt n) (by simp)]
    rw [greedyColumnsSpec]
    simp

theorem greedyColumnsSpec_bounded {α : Type} (wt : α → Nat) (hgt : Nat) :
    ∀ (k : Nat) (ns : List α), ns.length ≤ k →
      ((greedyColumnsSpec wt hgt ns).flatten = ns ∧
       ∀ c ∈ greedyColumnsSpec wt hgt ns, c ≠ []) := by
  intro k
  induction k with
  | zero =>
    intro ns h
    have : ns = [] := List.length_eq_zero.mp (Nat.le_zero.mp h)
    subst this
    simp [greedyColumnsSpec]
  | succ k ih =>
    intro ns h
    match ns with
    | [] => simp [greedyColumnsSpec]
    | n :: ns =>
      rw [greedyColumnsSpec]
      have hlen : (takeCol wt hgt (wt n) ns).2.length ≤ k := by
        have := takeCol_snd_length wt hgt (wt n) ns
        simp at h
        omega
      obtain ⟨ihf, ihp⟩ := ih _ hlen
      constructor
      · simp only [List.flatten_cons, ihf, List.cons_append]
        rw [takeCol_append]
      · intro c hc
        simp only [List.mem_cons] at hc
        rcases hc with hc | hc
        · simp [hc]
        · exact ihp c hc

theorem underRects_mem_width (x w extra : Nat) :
    ∀ (y : Nat) (col : List FileNode) (r : RectN),
      r ∈ underRects x w extra y col → r.width = w := by
  intro y col
  induction col generalizing y with
  | nil => simp [underRects]
  | cons n ns ih =>
    intro r hr
    simp only [underRects, List.mem_cons] at hr
    rcases hr with hr | hr
    · simp [hr]
    · exact ih _ r hr

theorem overRects_mem_width (x w yTop hgt total : Nat) :
    ∀ (y : Nat) (col : List FileNode) (r : RectN),
      r ∈ overRects x w yTop hgt total y col → r.width = w := by
  intro y col
  induction col generalizing y with
  | nil => simp [overRects]
  | cons n ns ih =>
    intro r hr
    simp only [overRects, List.mem_cons] at hr
    rcases hr with hr | hr
    · simp [hr]
    · exact ih _ r hr

theorem colRects_mem_width (yTop hgt x w : Nat) (col : List FileNode) (r : RectN)
    (hr : r ∈ colRects yTop hgt x w col) : r.width = w := by
  simp only [colRects] at hr
  split at hr
  · exact underRects_mem_width _ _ _ _ _ _ hr
  · exact overRects_mem_width _ _ _ _ _ _ _ _ hr

theorem layoutRects_mem_width (area : RectN) (ns : List FileNode) (r : RectN)
    (hr : r ∈ layoutRects area ns) :
    r.width = area.width / (buildColumns nodeWeight area.height ns).length := by
  simp only [layoutRects] at hr
  split at hr
  · simp at hr
  · simp only [List.mem_flatten, List.mem_map] at hr
    obtain ⟨l, ⟨p, hp, hl⟩, hrl⟩ := hr
    subst hl
    exact colRects_mem_width _ _ _ _ _ _ hrl

/-- C5: the column assignment of `layout_nodes` is the greedy algorithm of
the spec: base weights are `max 3 (1 + loaded-children count)` for a
directory and `1` for a file; children are scanned in order and a new
column starts exactly when the current column is non-empty and the child's
weight would overflow the height, so every column is non-empty and the
columns partition the child list in order; each rectangle's width is
`area.width / number_of_columns` with integer division. -/
theorem c5_greedy_columns :
    (∀ (wt : Nat → Nat) (hgt : Nat) (ns : List Nat),
        buildColumns wt hgt ns = greedyColumnsSpec wt hgt ns) ∧
    (∀ (wt : Nat → Nat) (hgt : Nat) (ns : List Nat),
        (buildColumns wt hgt ns).flatten = ns) ∧
    (∀ (wt : Nat → Nat) (hgt : Nat) (ns : List Nat) (c : List Nat),
        c ∈ buildColumns wt hgt ns → c ≠ []) ∧
    (∀ n : FileNode,
        nodeWeight n = if n.isDir then max 3 (1 + n.children.length) else 1) ∧
    (∀ (area : RectN) (ns : List FileNode) (r : RectN), r ∈ layoutRects area ns →
        r.width = area.width / (buildColumns nodeWeight area.height ns).length) := by
  refine ⟨fun wt hgt ns => buildColumns_eq_spec wt hgt ns, ?_, ?_, fun n => rfl,
    layoutRects_mem_width⟩
  · intro wt hgt ns
    rw [buildColumns_eq_spec]
    exact (greedyColumnsSpec_bounded wt hgt ns.length ns le_rfl).1
  · intro wt hgt ns c hc
    rw [buildColumns_eq_spec] at hc
    exact (greedyColumnsSpec_bounded wt hgt ns.length ns le_rfl).2 c hc

/-- Witness for C5 at concrete inputs. -/
theorem c5_greedy_columns_witness :
    buildColumns (fun v : Nat => v) 3 [1, 2, 3] =
      greedyColumnsSpec (fun v : Nat => v) 3 [1, 2, 3] ∧
    ([1, 2] : List Nat) ≠ [] ∧
    (⟨0, 0, 4, 1⟩ : RectN).width =
      (⟨0, 0, 8, 3⟩ : RectN).width /
        (buildColumns nodeWeight 3 [fileA, fileA, fileA, fileA]).length :=
  ⟨c5_greedy_columns.1 (fun v => v) 3 [1, 2, 3],
   c5_greedy_columns.2.2.1 (fun v : Nat => v) 3 [1, 2, 3] [1, 2] (by decide),
   c5_greedy_columns.2.2.2.2 ⟨0, 0, 8, 3⟩ [fileA, fileA, fileA, fileA] ⟨0, 0, 4, 1⟩
     (by decide)⟩

theorem underRects_map_height (x w extra : Nat) :
    ∀ (col : List FileNode) (y : Nat),
      (underRects x w extra y col).map RectN.height =
        col.map (fun n => nodeWeight n + extra) := by
  intro col
  induction col with
  | nil => simp [underRects]
  | cons n ns ih => intro y; simp [underRects, ih]

theorem underRects_get? (x w extra : Nat) :
    ∀ (col : List FileNode) (y k : Nat),
      (underRects x w extra y col).get? k = (col.get? k).map (fun n =>
        (⟨x, y + ((col.take k).map (fun n2 => nodeWeight n2 + extra)).sum, w,
          nodeWeight n + extra⟩ : RectN)) := by
  intro col
  induction col with
  | nil => simp [underRects]
  | cons n ns ih =>
    intro y k
    cases k with
    | zero => simp [underRects]
    | succ k =>
      simp only [underRects, List.get?_cons_succ, List.take_succ_cons, List.map_cons,
        List.sum_cons, ih]
      cases ns.get? k <;> simp [Nat.add_assoc]

theorem sum_map_weight_add (col : List FileNode) (extra : Nat) :
    (col.map (fun n => nodeWeight n + extra)).sum =
      (col.map nodeWeight).sum + col.length * extra := by
  induction col with
  | nil => simp
  | cons n ns ih => simp [ih]; ring

/-- C6: in the under-filled branch (`total <= area.height`) each member's
height is its base weight plus `(height - total) / member_count` extra
rows; rectangles are assigned top to bottom in order, the `k`-th starting
at `y = area.y +` the sum of the previous heights; the heights sum to the
column height minus at most `member_count - 1`. -/
theorem c6_under_branch (yTop hgt x w : Nat) (col : List FileNode)
    (hne : col ≠ []) (hfit : (col.map nodeWeight).sum ≤ hgt) :
    colRects yTop hgt x w col =
      underRects x w ((hgt - (col.map nodeWeight).sum) / col.length) yTop col ∧
    (colRects yTop hgt x w col).map RectN.height =
      col.map (fun n =>
        nodeWeight n + (hgt - (col.map nodeWeight).sum) / col.length) ∧
    (∀ k, (colRects yTop hgt x w col).get? k = (col.get? k).map (fun n =>
        ⟨x, yTop + ((col.take k).map (fun n2 =>
            nodeWeight n2 + (hgt - (col.map nodeWeight).sum) / col.length)).sum,
          w, nodeWeight n + (hgt - (col.map nodeWeight).sum) / col.length⟩)) ∧
    ((colRects yTop hgt x w col).map RectN.height).sum ≤ hgt ∧
    hgt - ((colRects yTop hgt x w col).map RectN.height).sum ≤ col.length - 1 := by
  have hlen : col.length ≠ 0 := fun h => hne (List.length_eq_zero.mp h)
  have h1 : colRects yTop hgt x w col =
      underRects x w ((hgt - (col.map nodeWeight).sum) / col.length) yTop col := by
    simp [colRects, hfit, hlen]
  have h2 := underRects_map_height x w
    ((hgt - (col.map nodeWeight).sum) / col.length) col yTop
  have hsum : ((colRects yTop hgt x w col).map RectN.height).sum =
      (col.map nodeWeight).sum +
        col.length * ((hgt - (col.map nodeWeight).sum) / col.length) := by
    rw [h1, h2, sum_map_weight_add]
  have hdm := Nat.div_add_mod (hgt - (col.map nodeWeight).sum) col.length
  have hmod : (hgt - (col.map nodeWeight).sum) % col.length < col.length :=
    Nat.mod_lt _ (Nat.pos_of_ne_zero hlen)
  refine ⟨h1, by rw [h1]; exact h2, ?_, ?_, ?_⟩
  · intro k
    rw [h1]
    exact underRects_get? x w _ col yTop k
  · omega
  · omega

/-- Witness for C6: the spec's own example — weights 1, 1, 3 in a
10-row column: extra row each, heights 2, 2, 4, under-fill 2. -/
theorem c6_under_branch_witness :
    (colRects 0 10 0 40 [fileA, fileA, dirB]).map RectN.height = [2, 2, 4] ∧
    ((colRects 0 10 0 40 [fileA, fileA, dirB]).map RectN.height).sum ≤ 10 ∧
    10 - ((colRects 0 10 0 40 [fileA, fileA, dirB]).map RectN.height).sum ≤ 2 := by
  have h := c6_under_branch 0 10 0 40 [fileA, fileA, dirB]
    (List.cons_ne_nil _ _) (by decide)
  exact ⟨by rw [h.2.1]; decide, h.2.2.2.1, h.2.2.2.2⟩

theorem clipH_next_le (yTop hgt y ph : Nat) (hy : y ≤ yTop + hgt) :
    y + clipH yTop hgt y ph ≤ yTop + hgt := by
  unfold clipH
  split <;> omega

theorem clipH_eq_min (yTop hgt y ph : Nat) (hy : y ≤ yTop + hgt) :
    clipH yTop hgt y ph = min ph ((yTop + hgt) - y) := by
  unfold clipH
  split <;> omega

theorem overRects_bottom (x w yTop hgt total : Nat) :
    ∀ (col : List FileNode) (y : Nat), y ≤ yTop + hgt →
      ∀ r ∈ overRects x w yTop hgt total y col, r.y + r.height ≤ yTop + hgt := by
  intro col
  induction col with
  | nil => simp [overRects]
  | cons n ns ih =>
    intro y hy r hr
    simp only [overRects, List.mem_cons] at hr
    rcases hr with hr | hr
    · subst hr
      exact clipH_next_le yTop hgt y _ hy
    · exact ih _ (clipH_next_le yTop hgt y _ hy) r hr

theorem overRects_heights (x w yTop hgt total : Nat) :
    ∀ (col : List FileNode) (y : Nat), y ≤ yTop + hgt →
      ∀ (k : Nat) (r : RectN) (n : FileNode),
        (overRects x w yTop hgt total y col).get? k = some r →
        col.get? k = some n →
        r.height =
          min (max 1 (nodeWeight n * hgt / total)) ((yTop + hgt) - r.y) := by
  intro col
  induction col with
  | nil => simp [overRects]
  | cons m ms ih =>
    intro y hy k r n hr hn
    cases k with
    | zero =>
      simp only [overRects, List.get?_cons_zero, Option.some_inj] at hr hn
      subst hn
      rw [← hr]
      exact clipH_eq_min yTop hgt y _ hy
    | succ k =>
      simp only [overRects, List.get?_cons_succ] at hr hn
      exact ih _ (clipH_next_le yTop hgt y _ hy) k r n hr hn

/-- Counterexample to C4 as stated: three weight-1 files in a 2-row area
(total 3 > 2) get pre-clip heights 1, 1, 1, and the clip reduces the third
assigned height to 0 — so not every assigned height is ≥ 1. -/
theorem c4_counterexample :
    (([fileA, fileA, fileA].map nodeWeight).sum = 3 ∧ 2 < 3) ∧
    ¬ (∀ r ∈ colRects 0 2 0 4 [fileA, fileA, fileA], 1 ≤ r.height) := by
  decide

/-- C4 as amended: in the over-filled branch each member's height before
clipping is `max 1 (floor (weight * height / total))` — at least 1 — and
the assigned height is that value clipped to the space left above the
area's bottom edge (so trailing assigned heights can drop to 0); no
assigned rectangle extends past the bottom edge. -/
theorem c4_over_branch (yTop hgt x w : Nat) (col : List FileNode)
    (hover : hgt < (col.map nodeWeight).sum) :
    colRects yTop hgt x w col =
      overRects x w yTop hgt ((col.map nodeWeight).sum) yTop col ∧
    (∀ r ∈ colRects yTop hgt x w col, r.y + r.height ≤ yTop + hgt) ∧
    (∀ (k : Nat) (r : RectN) (n : FileNode),
        (colRects yTop hgt x w col).get? k = some r → col.get? k = some n →
        1 ≤ max 1 (nodeWeight n * hgt / ((col.map nodeWeight).sum)) ∧
        r.height =
          min (max 1 (nodeWeight n * hgt / ((col.map nodeWeight).sum)))
            ((yTop + hgt) - r.y)) := by
  have h1 : colRects yTop hgt x w col =
      overRects x w yTop hgt ((col.map nodeWeight).sum) yTop col := by
    simp [colRects, Nat.not_le.mpr hover]
  refine ⟨h1, ?_, ?_⟩
  · rw [h1]
    exact overRects_bottom x w yTop hgt _ col yTop (Nat.le_add_right _ _)
  · intro k r n hr hn
    rw [h1] at hr
    exact ⟨Nat.le_max_left _ _,
      overRects_heights x w yTop hgt _ col yTop (Nat.le_add_right _ _) k r n hr hn⟩

/-- Witness for C4 as amended, at the counterexample's input: the third
rectangle is clipped to height 0 and stays inside the bottom edge. -/
theorem c4_over_branch_witness :
    (⟨0, 2, 4, 0⟩ : RectN).y + (⟨0, 2, 4, 0⟩ : RectN).height ≤ 0 + 2 ∧
    (⟨0, 2, 4, 0⟩ : RectN).height =
      min (max 1 (nodeWeight fileA * 2 / (([fileA, fileA, fileA].map nodeWeight).sum)))
        ((0 + 2) - (⟨0, 2, 4, 0⟩ : RectN).y) :=
  ⟨(c4_over_branch 0 2 0 4 [fileA, fileA, fileA] (by decide)).2.1 ⟨0, 2, 4, 0⟩
      (by decide),
   ((c4_over_branch 0 2 0 4 [fileA, fileA, fileA] (by decide)).2.2 2 ⟨0, 2, 4, 0⟩
      fileA (by decide) rfl).2⟩

/-! ## Navigation lemmas -/

theorem getLast?_ne_nil {α : Type} {l : List α} {a : α}
    (h : l.getLast? = some a) : l ≠ [] := by
  intro h2
  subst h2
  simp at h

theorem length_dropLast_concat {α : Type} (l : List α) (a : α) (h : l ≠ []) :
    (l.dropLast ++ [a]).length = l.length := by
  have : 0 < l.length := List.length_pos.mpr h
  simp [List.length_dropLast]
  omega

theorem list_set_self {α : Type} :
    ∀ (l : List α) (i : Nat) (a : α), l.get? i = some a → l.set i a = l := by
  intro l
  induction l with
  | nil => simp
  | cons b bs ih =>
    intro i a h
    cases i with
    | zero =>
      simp only [List.get?_cons_zero, Option.some_inj] at h
      simp [h]
    | succ i =>
      simp only [List.get?_cons_succ] at h
      simp [ih i a h]

theorem setChild_self (n : FileNode) (i : Nat) (c : FileNode)
    (h : n.children.get? i = some c) : n.setChild i c = n := by
  cases n with
  | mk nm p d r col cs l =>
    simp only [FileNode.setChild, FileNode.setChildren, FileNode.children] at h ⊢
    rw [list_set_self cs i c h]

theorem setAt_isSome :
    ∀ (p : List Nat) (t cur m : FileNode), nodeAt? t p = some cur →
      ∃ t2, setAt t p m = some t2 := by
  intro p
  induction p with
  | nil => exact fun t cur m _ => ⟨m, rfl⟩
  | cons i rest ih =>
    intro t cur m h
    simp only [nodeAt?] at h
    cases hc : t.children.get? i with
    | none => rw [hc] at h; exact absurd h (by simp)
    | some c =>
      rw [hc] at h
      obtain ⟨t2, ht2⟩ := ih c cur m h
      refine ⟨t.setChild i t2, ?_⟩
      have hc2 : t.children[i]? = some c := by simpa using hc
      simp [setAt, hc2, ht2]

/-- C10: `get_current_node` is total and skip-and-continue: for every tree
and every index sequence (out-of-bounds indices included) it yields an
actual node of the tree — some position `q` resolves to it — and on a cons
it either descends through a valid child index or skips an invalid one. -/
theorem c10_get_current_node_total :
    (∀ (n : FileNode) (p : List Nat), ∃ q : List Nat,
        nodeAt? n q = some (getCurrentNode n p)) ∧
    (∀ (n : FileNode) (i : Nat) (rest : List Nat),
        getCurrentNode n (i :: rest) =
          if h : i < n.children.length then
            getCurrentNode (n.children.get ⟨i, h⟩) rest
          else getCurrentNode n rest) := by
  constructor
  · intro n p
    induction p generalizing n with
    | nil => exact ⟨[], rfl⟩
    | cons i rest ih =>
      rw [getCurrentNode]
      split
      · next h =>
        obtain ⟨q, hq⟩ := ih (n.children.get ⟨i, h⟩)
        refine ⟨i :: q, ?_⟩
        simp only [List.get_eq_getElem] at hq
        simp [nodeAt?, List.getElem?_eq_getElem h, hq]
      · exact ih n
  · intro n i rest
    rw [getCurrentNode]

/-- C7: with the top of the selection stack in range for the currently
viewed node (`sel < max childCount 1`), MoveUp decrements it exactly when
it is positive, MoveDown increments it exactly when it is below
`childCount - 1`, both keep it in range with no wraparound, both are
no-ops when the viewed node has no children, and MoveOut is a no-op when
the path stack is empty. -/
theorem c7_clamped (st : NavState) (sel : Nat)
    (hsel : st.selStack.getLast? = some sel)
    (hrange : sel < max (getCurrentNode st.tree st.pathStack).children.length 1) :
    ((stepUp st).selStack.getLast? = some (if 0 < sel then sel - 1 else sel)) ∧
    ((stepDown st).selStack.getLast? = some
      (if sel < (getCurrentNode st.tree st.pathStack).children.length - 1
       then sel + 1 else sel)) ∧
    (∀ v, (stepUp st).selStack.getLast? = some v →
       v < max (getCurrentNode st.tree st.pathStack).children.length 1) ∧
    (∀ v, (stepDown st).selStack.getLast? = some v →
       v < max (getCurrentNode st.tree st.pathStack).children.length 1) ∧
    ((getCurrentNode st.tree st.pathStack).children.length = 0 →
       stepUp st = st ∧ stepDown st = st) ∧
    (st.pathStack = [] → stepLeft st = st) := by
  have h1 : (stepUp st).selStack.getLast? =
      some (if 0 < sel then sel - 1 else sel) := by
    simp only [stepUp, hsel]
    split
    · next h => simp [List.getLast?_concat, h]
    · next h => simp [hsel, h]
  have h2 : (stepDown st).selStack.getLast? = some
      (if sel < (getCurrentNode st.tree st.pathStack).children.length - 1
       then sel + 1 else sel) := by
    simp only [stepDown, hsel]
    split
    · next h => simp [List.getLast?_concat, h]
    · next h => simp [hsel, h]
  refine ⟨h1, h2, ?_, ?_, ?_, ?_⟩
  · intro v hv
    rw [h1] at hv
    have : v = if 0 < sel then sel - 1 else sel := by
      exact Option.some_inj.mp hv.symm
    subst this
    split <;> omega
  · intro v hv
    rw [h2] at hv
    have : v = if sel <
        (getCurrentNode st.tree st.pathStack).children.length - 1
        then sel + 1 else sel := by
      exact Option.some_inj.mp hv.symm
    subst this
    split <;> omega
  · intro hcnt
    have hz : sel = 0 := by omega
    subst hz
    constructor
    · simp [stepUp, hsel]
    · simp [stepDown, hsel, hcnt]
  · intro h
    simp [stepLeft, h]

/-- Witness for C7 at a concrete state. -/
theorem c7_clamped_witness :
    (stepUp ⟨rootA, [], [0]⟩).selStack.getLast? =
      some (if 0 < 0 then 0 - 1 else 0) ∧
    stepLeft ⟨rootA, [], [0]⟩ = ⟨rootA, [], [0]⟩ :=
  ⟨(c7_clamped ⟨rootA, [], [0]⟩ 0 rfl (by decide)).1,
   (c7_clamped ⟨rootA, [], [0]⟩ 0 rfl (by decide)).2.2.2.2.2 rfl⟩

/-- C8: the invariant `len(SelectionStack) = len(PathStack) + 1` holds in
the initial state, is preserved by every navigation transition that
completes, and makes the top of the selection stack always exist. -/
theorem c8_stack_invariant :
    (∀ t : FileNode, navInv ⟨t, [], [0]⟩) ∧
    (∀ (fs : Fs) (i : NavInput) (st st2 : NavState),
        stepNav fs i st = some st2 → navInv st → navInv st2) ∧
    (∀ st : NavState, navInv st → ∃ sel, st.selStack.getLast? = some sel) := by
  refine ⟨fun t => rfl, ?_, ?_⟩
  · intro fs i st st2 h hinv
    cases i with
    | up =>
      simp only [stepNav, Option.some_inj] at h
      subst h
      simp only [stepUp]
      split
      · exact hinv
      · next sel hl =>
        split
        · have hne := getLast?_ne_nil hl
          simp only [navInv] at hinv ⊢
          rw [length_dropLast_concat _ _ hne]
          exact hinv
        · exact hinv
    | down =>
      simp only [stepNav, Option.some_inj] at h
      subst h
      simp only [stepDown]
      split
      · exact hinv
      · next sel hl =>
        split
        · have hne := getLast?_ne_nil hl
          simp only [navInv] at hinv ⊢
          rw [length_dropLast_concat _ _ hne]
          exact hinv
        · exact hinv
    | out =>
      simp only [stepNav, Option.some_inj] at h
      subst h
      simp only [stepLeft]
      split
      · exact hinv
      · next hne =>
        simp only [navInv] at hinv ⊢
        have hp : st.pathStack ≠ [] := by
          simpa [List.isEmpty_iff] using hne
        have h1 : 0 < st.pathStack.length := List.length_pos.mpr hp
        simp only [List.length_dropLast]
        omega
    | into =>
      simp only [stepNav, stepRight] at h
      split at h
      · exact absurd h (by simp)
      · split at h
        · rw [Option.some_inj] at h
          subst h
          exact hinv
        · split at h
          · exact absurd h (by simp)
          · split at h
            · exact absurd h (by simp)
            · rw [Option.some_inj] at h
              subst h
              simp only [navInv] at hinv ⊢
              simp [hinv]
  · intro st hinv
    have hne : st.selStack ≠ [] := by
      intro h2
      simp only [navInv, h2] at hinv
      simp at hinv
    cases hl : st.selStack.getLast? with
    | none =>
      exact absurd (List.getLast?_eq_none_iff.mp hl) hne
    | some sel => exact ⟨sel, rfl⟩

/-- Witness for C8: one Up transition from the initial state over `rootA`
preserves the invariant. -/
theorem c8_stack_invariant_witness :
    navInv (stepUp ⟨rootA, [], [0]⟩) :=
  c8_stack_invariant.2.1 trivialFs NavInput.up ⟨rootA, [], [0]⟩ (stepUp ⟨rootA, [], [0]⟩)
    rfl (c8_stack_invariant.1 rootA)

/-- Counterexample to C3 as stated: the highlighted child of `rootA` is a
file, yet MoveInto is not a no-op — it pushes the index onto the path
stack and 0 onto the selection stack. -/
theorem c3_counterexample :
    ((rootA.children.get? 0).map FileNode.isDir = some false) ∧
    (stepRight trivialFs ⟨rootA, [], [0]⟩).map NavState.pathStack = some [0] ∧
    (stepRight trivialFs ⟨rootA, [], [0]⟩).map NavState.selStack = some [0, 0] := by
  refine ⟨rfl, ?_, ?_⟩ <;> rfl

/-- C3 as amended: MoveInto is a no-op exactly when the viewed node has no
children; otherwise — whether the highlighted child is a file or a
directory — it pushes the highlighted index onto the path stack and 0
onto the selection stack, first preloading the child to depth 3 when it
is a directory whose `loaded` flag is false (the child is left alone in
every other case). -/
theorem c3_move_into (fs : Fs) (st : NavState) (cur : FileNode) (sel : Nat)
    (hcur : nodeAt? st.tree st.pathStack = some cur)
    (hsel : st.selStack.getLast? = some sel) :
    (cur.children = [] → stepRight fs st = some st) ∧
    (∀ child, cur.children.get? sel = some child →
      ∃ st2, stepRight fs st = some st2 ∧
        st2.pathStack = st.pathStack ++ [sel] ∧
        st2.selStack = st.selStack ++ [0] ∧
        (¬ (child.isDir = true ∧ child.loaded = false) → st2.tree = st.tree) ∧
        (child.isDir = true ∧ child.loaded = false →
          setAt st.tree st.pathStack
            (cur.setChild sel (lazyLoadToDepth fs 3 child)) = some st2.tree)) := by
  constructor
  · intro he
    simp [stepRight, hcur, he]
  · intro child hchild
    have hne : cur.children.isEmpty = false := by
      cases hcc : cur.children with
      | nil => rw [hcc] at hchild; simp at hchild
      | cons a as => simp
    have hchild2 : cur.children[sel]? = some child := by simpa using hchild
    by_cases hdir : child.isDir = true ∧ child.loaded = false
    · obtain ⟨t2, ht2⟩ := setAt_isSome st.pathStack st.tree cur
        (cur.setChild sel (lazyLoadToDepth fs 3 child)) hcur
      refine ⟨⟨t2, st.pathStack ++ [sel], st.selStack ++ [0]⟩, ?_, rfl, rfl,
        fun hc => absurd hdir hc, fun _ => by simpa using ht2⟩
      simp [stepRight, hcur, hne, hsel, hchild2, hdir, ht2]
    · refine ⟨⟨st.tree, st.pathStack ++ [sel], st.selStack ++ [0]⟩, ?_, rfl, rfl,
        fun _ => rfl, fun hc => absurd hc hdir⟩
      simp [stepRight, hcur, hne, hsel, hchild2, hdir]

/-- Witness for C3 as amended, entering the file child of `rootA`. -/
theorem c3_move_into_witness :
    ∃ st2, stepRight trivialFs ⟨rootA, [], [0]⟩ = some st2 ∧
      st2.pathStack = ([] : List Nat) ++ [0] ∧
      st2.selStack = [0] ++ [0] ∧
      (¬ ((FileNode.new "a" ["r", "a"] false).isDir = true ∧
          (FileNode.new "a" ["r", "a"] false).loaded = false) →
        st2.tree = rootA) ∧
      ((FileNode.new "a" ["r", "a"] false).isDir = true ∧
          (FileNode.new "a" ["r", "a"] false).loaded = false →
        setAt rootA []
          (rootA.setChild 0 (lazyLoadToDepth trivialFs 3
            (FileNode.new "a" ["r", "a"] false))) = some st2.tree) :=
  (c3_move_into trivialFs ⟨rootA, [], [0]⟩ rootA 0 rfl rfl).2
    (FileNode.new "a" ["r", "a"] false) rfl

/-! ## Tree loading: C1 and C2 -/

/-- A filesystem with directory `d` holding subdirectory `d/s`, which
holds file `d/s/f`; every metadata read succeeds. -/
def fsC1 : Fs where
  readDir := fun p =>
    if p = ["d"] then some [.ok ["d", "s"]]
    else if p = ["d", "s"] then some [.ok ["d", "s", "f"]]
    else none
  metadata := fun p =>
    if p = ["d", "s"] then .ok true
    else if p = ["d", "s", "f"] then .ok false
    else .error ()

/-- C1 evidence: `load_children` never sets `loaded`; after one
successful call on directory `d` the flag is still `false`, and a second
call re-enumerates — the grandchild materialized by a depth-2 preload is
present before the call and gone after it, so the second call is not a
no-op and replaces already-materialized children. -/
theorem c1_loaded_never_set :
    ((loadChildren fsC1 (FileNode.new "d" ["d"] true)).toOption.map FileNode.loaded
        = some false) ∧
    ((nodeAt? (lazyLoadToDepth fsC1 2 (FileNode.new "d" ["d"] true)) [0, 0]).isSome
        = true) ∧
    (((loadChildren fsC1
          (lazyLoadToDepth fsC1 2 (FileNode.new "d" ["d"] true))).toOption.bind
        (fun d => nodeAt? d [0, 0])).isSome = false) := by
  refine ⟨rfl, rfl, rfl⟩

/-- A filesystem where directory `d` enumerates entries `d/a` (metadata
succeeds), one per-entry iterator error, and `d/b` (metadata fails). -/
def fsC2 : Fs where
  readDir := fun p =>
    if p = ["d"] then some [.ok ["d", "a"], .error (), .ok ["d", "b"]]
    else none
  metadata := fun p =>
    if p = ["d", "a"] then .ok false
    else .error ()

/-- Counterexample to C2 as stated: a metadata failure for one entry is
propagated as an error of `load_children` (the readable entry `d/a` is
not retained). -/
theorem c2_counterexample :
    ((fsC2.metadata ["d", "a"]).toOption = some false) ∧
    ((loadChildren fsC2 (FileNode.new "d" ["d"] true)).toOption.isSome = false) := by
  exact ⟨rfl, rfl⟩

theorem readEntries_error (fs : Fs) :
    ∀ (entries : List (Except Unit (List String))),
      (∃ p, Except.ok p ∈ entries ∧ (fs.metadata p).toOption = none) →
      readEntries fs entries = .error () := by
  intro entries
  induction entries with
  | nil =>
    rintro ⟨p, hp, -⟩
    simp at hp
  | cons e rest ih =>
    rintro ⟨p, hp, hmeta⟩
    match e with
    | .error u =>
      cases u
      rw [readEntries]
      apply ih
      refine ⟨p, ?_, hmeta⟩
      rcases List.mem_cons.mp hp with h | h
      · exact absurd h (by simp)
      · exact h
    | .ok q =>
      rw [readEntries]
      rcases List.mem_cons.mp hp with h | h
      · have hq : q = p := by
          have := Except.ok.inj h
          exact this.symm
        subst hq
        cases hmq : fs.metadata q with
        | error u => cases u; rfl
        | ok b => rw [hmq] at hmeta; simp [Except.toOption] at hmeta
      · cases hmq : fs.metadata q with
        | error u => cases u; rfl
        | ok b =>
          have hrest := ih ⟨p, h, hmeta⟩
          simp only [hrest]
          rfl

/-- C2 as amended: a metadata failure for any successfully-iterated entry
makes `load_children` return that error (no partial result is kept — the
node is left as it was); per-entry iterator errors from `read_dir` are
skipped silently; a failure of `read_dir` itself yields `Ok` with an
empty children list. -/
theorem c2_error_propagation (fs : Fs) (n : FileNode)
    (hdir : n.isDir = true) (hload : n.loaded = false) :
    (∀ entries, fs.readDir n.path = some entries →
        (∃ p, Except.ok p ∈ entries ∧ (fs.metadata p).toOption = none) →
        loadChildren fs n = .error ()) ∧
    (∀ rest, readEntries fs (.error () :: rest) = readEntries fs rest) ∧
    (fs.readDir n.path = none → loadChildren fs n = .ok (n.setChildren [])) := by
  refine ⟨?_, fun rest => rfl, ?_⟩
  · intro entries he hex
    have herr := readEntries_error fs entries hex
    simp [loadChildren, hdir, hload, he, herr]
  · intro h
    simp [loadChildren, hdir, hload, h]

/-- Witness for C2 as amended on `fsC2`. -/
theorem c2_error_propagation_witness :
    loadChildren fsC2 (FileNode.new "d" ["d"] true) = Except.error () ∧
    readEntries fsC2 [Except.error ()] = readEntries fsC2 [] :=
  ⟨(c2_error_propagation fsC2 (FileNode.new "d" ["d"] true) rfl rfl).1
      [Except.ok ["d", "a"], Except.error (), Except.ok ["d", "b"]] rfl
      ⟨["d", "b"],
        List.mem_cons_of_mem _ (List.mem_cons_of_mem _ (List.mem_cons_self _ _)),
        rfl⟩,
   (c2_error_propagation fsC2 (FileNode.new "d" ["d"] true) rfl rfl).2.1
      [Except.error ()]⟩

/-! ## Status merge: C9 -/

theorem updateTreeStatus_children (wd : Option (List String))
    (m : List (List String × GitStatus)) (n : FileNode) :
    (updateTreeStatus wd m n).children = n.children.map (updateTreeStatus wd m) := by
  cases n with
  | mk nm p d r c cs l =>
    simp [updateTreeStatus, FileNode.children, List.attach_map_coe]

theorem updateTreeStatus_name (wd : Option (List String))
    (m : List (List String × GitStatus)) (n : FileNode) :
    (updateTreeStatus wd m n).name = n.name := by
  cases n with
  | mk nm p d r c cs l => simp [updateTreeStatus, FileNode.name]

theorem updateTreeStatus_path (wd : Option (List String))
    (m : List (List String × GitStatus)) (n : FileNode) :
    (updateTreeStatus wd m n).path = n.path := by
  cases n with
  | mk nm p d r c cs l => simp [updateTreeStatus, FileNode.path]

theorem updateTreeStatus_isDir (wd : Option (List String))
    (m : List (List String × GitStatus)) (n : FileNode) :
    (updateTreeStatus wd m n).isDir = n.isDir := by
  cases n with
  | mk nm p d r c cs l => simp [updateTreeStatus, FileNode.isDir]

theorem updateTreeStatus_rect (wd : Option (List String))
    (m : List (List String × GitStatus)) (n : FileNode) :
    (updateTreeStatus wd m n).rect = n.rect := by
  cases n with
  | mk nm p d r c cs l => simp [updateTreeStatus, FileNode.rect]

theorem updateTreeStatus_loaded (wd : Option (List String))
    (m : List (List String × GitStatus)) (n : FileNode) :
    (updateTreeStatus wd m n).loaded = n.loaded := by
  cases n with
  | mk nm p d r c cs l => simp [updateTreeStatus, FileNode.loaded]

theorem updateTreeStatus_color_miss (wd : Option (List String))
    (m : List (List String × GitStatus)) (n : FileNode)
    (h : statusHit wd m n.path = false) :
    (updateTreeStatus wd m n).color = n.color := by
  cases n with
  | mk nm p d r c cs l =>
    simp only [statusHit, FileNode.path] at h
    simp only [updateTreeStatus, FileNode.color]
    cases wd with
    | none => rfl
    | some w =>
      by_cases hp : w.isPrefixOf p = true
      · cases ho : m.lookup (p.drop w.length) with
        | none => simp [mergeColor, hp, ho]
        | some v => simp [hp, ho] at h
      · simp only [Bool.not_eq_true] at hp
        simp [mergeColor, hp]

theorem updateTreeStatus_color_hit (w : List String)
    (m : List (List String × GitStatus)) (n : FileNode) (st : GitStatus)
    (hpre : w.isPrefixOf n.path = true)
    (hlook : m.lookup (n.path.drop w.length) = some st) :
    (updateTreeStatus (some w) m n).color = colorForGitStatus (some st) := by
  cases n with
  | mk nm p d r c cs l =>
    simp only [FileNode.path] at hpre hlook
    simp only [updateTreeStatus, FileNode.color]
    simp [mergeColor, hpre, hlook]

theorem nodeAt?_updateTreeStatus (wd : Option (List String))
    (m : List (List String × GitStatus)) :
    ∀ (idxs : List Nat) (n : FileNode),
      nodeAt? (updateTreeStatus wd m n) idxs =
        (nodeAt? n idxs).map (updateTreeStatus wd m) := by
  intro idxs
  induction idxs with
  | nil => intro n; rfl
  | cons i rest ih =>
    intro n
    cases hc : n.children[i]? with
    | none => simp [nodeAt?, updateTreeStatus_children, hc]
    | some c => simp [nodeAt?, updateTreeStatus_children, hc, ih c]

/-- C9 as amended: the status merge keys nodes by their path relative to
the repository workdir (`strip_prefix(workdir)`), not the tree root; at
every position of the tree the merge leaves name, path, is_dir, rect,
loaded and the child count unchanged, and leaves the color unchanged for
every node whose workdir-relative path misses the map (including nodes
not under the workdir at all). -/
theorem c9_status_merge (wd : Option (List String))
    (m : List (List String × GitStatus)) (n : FileNode) (idxs : List Nat)
    (sub : FileNode) (h : nodeAt? n idxs = some sub) :
    ∃ sub2, nodeAt? (updateTreeStatus wd m n) idxs = some sub2 ∧
      sub2.name = sub.name ∧ sub2.path = sub.path ∧ sub2.isDir = sub.isDir ∧
      sub2.rect = sub.rect ∧ sub2.loaded = sub.loaded ∧
      sub2.children.length = sub.children.length ∧
      (statusHit wd m sub.path = false → sub2.color = sub.color) := by
  refine ⟨updateTreeStatus wd m sub, ?_, updateTreeStatus_name wd m sub,
    updateTreeStatus_path wd m sub, updateTreeStatus_isDir wd m sub,
    updateTreeStatus_rect wd m sub, updateTreeStatus_loaded wd m sub, ?_,
    fun hs => updateTreeStatus_color_miss wd m sub hs⟩
  · rw [nodeAt?_updateTreeStatus, h, Option.map_some']
  · rw [updateTreeStatus_children]
    simp

/-- The status flag set of a newly added file. -/
def stNew : GitStatus := ⟨true, false, false, false, false, false⟩

/-- A tree root at `r/s` (inside repository workdir `r`) with one file
child `r/s/a`. -/
def c9root : FileNode :=
  .mk "s" ["r", "s"] true ⟨0, 0, 0, 0⟩ .white
    [FileNode.new "a" ["r", "s", "a"] false] true

/-- A status map keyed by workdir-relative paths, holding `s/a`. -/
def c9map : List (List String × GitStatus) := [(["s", "a"], stNew)]

/-- Counterexample to C9 as stated: browsing `r/s` inside repository
workdir `r`, the child `r/s/a` has tree-root-relative path `a`, which is
absent from the delivered map — yet the merge recolors it (via its
workdir-relative path `s/a`), so relative-to-tree-root is the wrong key. -/
theorem c9_counterexample :
    (c9map.lookup ((FileNode.new "a" ["r", "s", "a"] false).path.drop
        c9root.path.length) = none) ∧
    ((nodeAt? c9root [0]).map FileNode.color = some ColorT.white) ∧
    ((nodeAt? (updateTreeStatus (some ["r"]) c9map c9root) [0]).map FileNode.color
        = some ColorT.green) := by
  refine ⟨by decide, rfl, ?_⟩
  rw [nodeAt?_updateTreeStatus]
  have h0 : nodeAt? c9root [0] = some (FileNode.new "a" ["r", "s", "a"] false) := rfl
  rw [h0]
  show some ((updateTreeStatus (some ["r"]) c9map
      (FileNode.new "a" ["r", "s", "a"] false)).color) = some ColorT.green
  rw [updateTreeStatus_color_hit ["r"] c9map (FileNode.new "a" ["r", "s", "a"] false)
    stNew (by decide) (by decide)]
  rfl

/-- Witness for C9 as amended at the root of `c9root`, whose
workdir-relative path `s` misses the map: its color is unchanged. -/
theorem c9_status_merge_witness :
    statusHit (some ["r"]) c9map c9root.path = false ∧
    (updateTreeStatus (some ["r"]) c9map c9root).color = c9root.color := by
  obtain ⟨sub2, h1, -, -, -, -, -, -, hcol⟩ :=
    c9_status_merge (some ["r"]) c9map c9root [] c9root rfl
  have hs : statusHit (some ["r"]) c9map c9root.path = false := by decide
  have h2 : sub2 = updateTreeStatus (some ["r"]) c9map c9root := by
    have h3 : nodeAt? (updateTreeStatus (some ["r"]) c9map c9root) [] =
        some (updateTreeStatus (some ["r"]) c9map c9root) := rfl
    rw [h3, Option.some_inj] at h1
    exact h1.symm
  exact ⟨hs, h2 ▸ hcol hs⟩

end Castle
